import Mathlib

/-!
# Verification of the Louvain clustering driver and the Alt worklists

Shallow embedding of the Louvain community-detection engine
(`lonestar` Louvain driver: `vertexFollowing`, `sumVertexDegreeWeight`,
`calConstantForSecondTerm`, `maxModularity`, `algoLouvainWithLocking`,
`runMultiPhaseLouvainAlgorithm`) and of the `GaloisRuntime::WorkList::Alt`
chunked worklists (`Chunk`, `LIFO_SB`, `InitialQueue`, `ChunkedAdaptor`).

Modelling conventions:
* `uint64_t` values are natural numbers; the operations where wrap-around is
  reachable (`std::atomic` add/subtract on `Comm` fields, the `uint64_t`
  subtractions feeding `double` conversions in `maxModularity`) are modelled
  with explicit arithmetic modulo `2^64` (`add64`, `sub64`).  Edge-weight
  accumulations are kept as plain `ℕ` additions; the theorems that depend on
  them carry a hypothesis keeping the total weighted degree below `2^64`,
  under which no such accumulation wraps.
* `double` arithmetic: the finite values arising here are integer-valued
  sums and their exact ratios, modelled over `ℚ` (no rounding is involved for
  them).  The convergence loop, where the source can produce infinities and
  NaNs (`1/0.0 = +inf` on a zero total edge weight, `0.0 * inf = NaN`, and
  NaN-poisoned comparisons), is modelled over `DVal`, which carries exactly
  those non-finite values with their IEEE-754 rules.
* The graph is the consumed CSR view: a row-pointer array plus flat
  destination and weight arrays, exactly the shape `LC_CSR_Graph` exposes
  through `edge_begin` / `edge_end` / `getEdgeDst` / `getEdgeData`.
-/

namespace GaloisSpec

/-- `2^64`, the modulus of `uint64_t` arithmetic. -/
def U64 : ℕ := 18446744073709551616

/-- `uint64_t` addition: wraps modulo `2^64`. -/
def add64 (a b : ℕ) : ℕ := (a + b) % U64

/-- `uint64_t` subtraction: wraps modulo `2^64`. -/
def sub64 (a b : ℕ) : ℕ := (a % U64 + (U64 - b % U64)) % U64

theorem add64_eq_add {a b : ℕ} (h : a + b < U64) : add64 a b = a + b := by
  unfold add64 U64 at *
  omega

theorem sub64_eq_sub {a b : ℕ} (hba : b ≤ a) (ha : a < U64) : sub64 a b = a - b := by
  unfold sub64 U64 at *
  omega

/-- The bit pattern of `(uint64_t)(-1)`, stored by the source into `uint64_t`
slots (`clusters[n] = -1`, `uint64_t local_target = -1`). -/
def NEG1 : ℕ := U64 - 1

/-- `INF_VAL = std::numeric_limits<uint64_t>::max() / 2 - 1`. -/
def INF_VAL : ℕ := (U64 - 1) / 2 - 1

/-! ## CSR graph view

The consumed interface of `LC_CSR_Graph`: `rowPtr` has `n + 1` entries;
edge slot `i` stores destination `edgeDst[i]` and weight `edgeWt[i]`.
Vertex `v` owns the edge slots `[rowPtr[v], rowPtr[v+1])`. -/

structure CSRGraph where
  n : ℕ
  rowPtr : List ℕ
  edgeDst : List ℕ
  edgeWt : List ℕ

/-- `graph.edge_begin(v)` as an index into the flat edge arrays. -/
def edgeBegin (g : CSRGraph) (v : ℕ) : ℕ := g.rowPtr.getD v 0

/-- `graph.edge_end(v)` as an index into the flat edge arrays. -/
def edgeEnd (g : CSRGraph) (v : ℕ) : ℕ := g.rowPtr.getD (v + 1) 0

/-- `std::distance(graph.edge_begin(v), graph.edge_end(v))`. -/
def degreeOf (g : CSRGraph) (v : ℕ) : ℕ := edgeEnd g v - edgeBegin g v

/-- The `(dst, weight)` pairs of `v`'s edge slots, in CSR order. -/
def edgesOf (g : CSRGraph) (v : ℕ) : List (ℕ × ℕ) :=
  (List.range (degreeOf g v)).map
    (fun i => (g.edgeDst.getD (edgeBegin g v + i) 0, g.edgeWt.getD (edgeBegin g v + i) 0))

/-- `sumVertexDegreeWeight`: the weighted degree of `v`, the sum of the
weights of `v`'s incident edge slots (computed once per phase and stored in
`n_data.degree_wt`; never modified afterwards). -/
def degWt (g : CSRGraph) (v : ℕ) : ℕ := ((edgesOf g v).map Prod.snd).sum

/-! ## Vertex following (`vertexFollowing`) -/

/-- The value of `curr_comm_ass` read during `vertexFollowing`'s second pass:
its first pass has just initialized every node to its own cluster
(`graph.getData(n).curr_comm_ass = n`). -/
def vfCurrComm (_g : CSRGraph) : ℕ → ℕ := fun d => d

/-- The second (counting) pass of `vertexFollowing` at vertex `n`:
`some c` when the pass stores `c` into `clusters[n]` (and bumps the
`isolatedNodes` accumulator), `none` when it leaves `clusters[n]` alone.

The degree-one branch of the source reads
`graph.getEdgeDst(graph.edge_end(n, UNPROTECTED))`, i.e. the destination in
the edge slot at index `edge_end n` — one *past* `n`'s own edge slots (for the
last vertex of the graph this slot is past the whole edge array; such an
out-of-range read is modelled as destination `0`). -/
def vfClusterUpdate (g : CSRGraph) (n : ℕ) : Option ℕ :=
  let degree := degreeOf g n
  if degree = 0 then some NEG1
  else if degree = 1 then
    let dst := g.edgeDst.getD (edgeEnd g n) 0
    let dst_degree := degreeOf g dst
    if 1 < dst_degree ∨ dst < n then some (vfCurrComm g dst) else none
  else none

/-- The value returned by `vertexFollowing`: how many vertices were marked
isolated or followed. -/
def vertexFollowingCount (g : CSRGraph) : ℕ :=
  ∑ v ∈ Finset.range g.n, if (vfClusterUpdate g v).isSome then 1 else 0

/-- The `clusters` array after `vertexFollowing`, starting from contents
`clusters0` (the source passes a freshly allocated, uninitialized array). -/
def vertexFollowingClusters (g : CSRGraph) (clusters0 : ℕ → ℕ) : ℕ → ℕ :=
  fun v => (vfClusterUpdate g v).getD (clusters0 v)

/-! ### Concrete graphs used by the scenario claims -/

/-- The path `0 — 1` with a single unit-weight (symmetric) edge. -/
def pathGraph : CSRGraph := ⟨2, [0, 1, 2], [1, 0], [1, 1]⟩

/-- Two isolated vertices, no edges. -/
def twoIsolated : CSRGraph := ⟨2, [0, 0, 0], [], []⟩

/-- One isolated vertex, no edges. -/
def oneIsolated : CSRGraph := ⟨1, [0, 0], [], []⟩

/-- Symmetric unit-weight graph on `{0, 1, 2, 3}` with edges
`0—1, 1—2, 1—3, 2—3`; adjacency `0:[1]`, `1:[0,2,3]`, `2:[1,3]`, `3:[1,2]`.
Vertex `0` is the only degree-one vertex and its unique neighbor `1` has
degree `3`, so the spec's vertex-following rule would collapse `0` into `1`;
the slot at `edge_end(0) = 1` instead holds vertex `1`'s first edge, whose
destination is `0`. -/
def vfBugGraph : CSRGraph :=
  ⟨4, [0, 1, 4, 6, 8], [1, 0, 2, 3, 1, 3, 1, 2], [1, 1, 1, 1, 1, 1, 1, 1]⟩

/-- C5: `vertexFollowing` on `vfBugGraph` follows nobody: vertex `0` has
degree one and a unique neighbor of degree three, yet the misdirected
`getEdgeDst(edge_end(0))` read yields destination `0` (degree one, and
`0 > 0` fails), so `clusters[0]` is left unchanged and the returned count is
`0` — against the claimed `clusters[0] = curr_comm(1) = 1`, count `1`. -/
theorem c5_vertex_following_eval :
    vfClusterUpdate vfBugGraph 0 = none ∧ vertexFollowingCount vfBugGraph = 0 := by
  constructor
  · decide
  · decide

/-- C6 counterexample: on the path `0 — 1`, running `vertexFollowing` over a
`clusters` array holding `INF_VAL` leaves `clusters[0] = INF_VAL ≠ 1`: the
claim that vertex `0` is collapsed into vertex `1` is false on the code. -/
theorem c6_counterexample :
    vertexFollowingClusters pathGraph (fun _ => INF_VAL) 0 ≠ 1 := by
  decide

/-- C6 amended: on the path `0 — 1`, `vertexFollowing` does not touch
`clusters[0]` at all — the degree-one check for vertex `0` reads the edge slot
at `edge_end(0) = 1`, whose destination is `0` itself, so both the
`dst_degree > 1` and the `n > dst` condition fail.  (Even the spec's own
§4.6 rule would not collapse `0` into `1`: it would instead collapse `1`
into `0`, since `deg(d) = 1` and `1 > 0`.) -/
theorem c6_amended : vfClusterUpdate pathGraph 0 = none := by
  decide

/-! ## Multi-phase driver (`runMultiPhaseLouvainAlgorithm`) -/

/-- One pass of the `while(true)` loop body of `runMultiPhaseLouvainAlgorithm`:
the engine is invoked when `graph.size() > min_graph_size`, and the body then
ends in an unconditional `break` (`//TODO:remove this`).  Returns the number of
engine invocations made by this pass and whether the loop breaks. -/
def multiPhaseBody (n min_graph_size : ℕ) : ℕ × Bool :=
  ((if min_graph_size < n then 1 else 0), true)

/-- The `while(true)` loop of `runMultiPhaseLouvainAlgorithm` with explicit
fuel, counting `(engine invocations, phases run)`. -/
def runMultiPhase (n min_graph_size : ℕ) : ℕ → ℕ × ℕ
  | 0 => (0, 0)
  | fuel + 1 =>
    let r := multiPhaseBody n min_graph_size
    if r.2 then (r.1, 1)
    else (r.1 + (runMultiPhase n min_graph_size fuel).1,
          1 + (runMultiPhase n min_graph_size fuel).2)

/-- C8: whatever positive fuel the loop is given, `runMultiPhaseLouvainAlgorithm`
with `main`'s `min_graph_size = 100` runs exactly one phase, invoking the
Louvain engine once when the vertex count strictly exceeds `100` and never
otherwise — the unconditional `break` forbids contraction or a second phase. -/
theorem c8_single_phase (n fuel : ℕ) :
    runMultiPhase n 100 (fuel + 1) = ((if 100 < n then 1 else 0), 1) := by
  simp [runMultiPhase, multiPhaseBody]

/-! ## `maxModularity`

The community table entry `Comm` and the best-target selection.  The source
iterates a `std::map<uint64_t, uint64_t>` (community id → dense index into
`counter`); the map is modelled as the association list `cluster_local_map`,
and the `do … while` scan as a left fold of `mmStep`.  The theorems below
characterize the fold for *every* iteration order, so the `std::map`'s sorted
key order is covered. -/

/-- `struct Comm` (the `std::atomic` fields are plain naturals here; atomic
update order is handled where the fields are mutated). -/
structure Comm where
  size : ℕ
  degree_wt : ℕ
deriving DecidableEq

/-- One `do … while` step of `maxModularity`: skip the self community `sc`;
otherwise compare `cur_gain` against the running `(max_gain, max_index)`,
replacing it on `cur_gain > max_gain`, or on an exact tie when the gain is
nonzero and the new community id is smaller. -/
def mmStep (gf : ℕ × ℕ → ℚ) (sc : ℕ) (acc : ℚ × ℕ) (p : ℕ × ℕ) : ℚ × ℕ :=
  if p.1 = sc then acc
  else
    let cur := gf p
    if acc.1 < cur ∨ (cur = acc.1 ∧ cur ≠ 0 ∧ p.1 < acc.2) then (cur, p.1) else acc

/-- The whole scan of `maxModularity`, starting from
`max_index = sc`, `max_gain = 0`. -/
def mmFold (gf : ℕ × ℕ → ℚ) (sc : ℕ) (clm : List (ℕ × ℕ)) : ℚ × ℕ :=
  clm.foldl (mmStep gf sc) (0, sc)

/-- The gain the source computes for a map entry `p = (community, index)`:
`eix` and `ax` come from `uint64_t` subtractions converted to `double`
(`counter[0] - self_loop_wt` and `c_info[sc].degree_wt - degree_wt`). -/
def codeGain (counter : List ℕ) (self_loop_wt : ℕ) (c_info : ℕ → Comm)
    (degree_wt sc : ℕ) (constant : ℚ) (p : ℕ × ℕ) : ℚ :=
  let eix : ℚ := (sub64 (counter.getD 0 0) self_loop_wt : ℕ)
  let ax : ℚ := (sub64 (c_info sc).degree_wt degree_wt : ℕ)
  let ay : ℚ := ((c_info p.1).degree_wt : ℕ)
  let eiy : ℚ := (counter.getD p.2 0 : ℕ)
  2 * constant * (eiy - eix) + 2 * (degree_wt : ℚ) * (ax - ay) * constant * constant

/-- `maxModularity(cluster_local_map, counter, self_loop_wt, c_info, degree_wt,
sc, constant)`: scan every map entry for the best gain, then apply the
singleton-pair guard `c_info[max_index].size == 1 && c_info[sc].size == 1 &&
max_index > sc`. -/
def maxModularity (cluster_local_map : List (ℕ × ℕ)) (counter : List ℕ)
    (self_loop_wt : ℕ) (c_info : ℕ → Comm) (degree_wt sc : ℕ) (constant : ℚ) : ℕ :=
  let r := mmFold (codeGain counter self_loop_wt c_info degree_wt sc constant)
    sc cluster_local_map
  let max_index := r.2
  if (c_info max_index).size = 1 ∧ (c_info sc).size = 1 ∧ sc < max_index then sc
  else max_index

/-- The gain `Δ(y)` with the claim's exact arithmetic:
`Δ(y) = 2·k·(e_iy − e_ix) + 2·deg·(a_x − a_y)·k²` where
`e_ix = counter[0] − self_loop_wt` and `a_x = c_info[sc].degree_wt − degree_wt`
are ordinary (rational) subtractions. -/
def claimGain (counter : List ℕ) (self_loop_wt : ℕ) (c_info : ℕ → Comm)
    (degree_wt sc : ℕ) (k : ℚ) (p : ℕ × ℕ) : ℚ :=
  2 * k * ((counter.getD p.2 0 : ℚ) - ((counter.getD 0 0 : ℚ) - (self_loop_wt : ℚ)))
    + 2 * (degree_wt : ℚ)
      * ((((c_info sc).degree_wt : ℚ) - (degree_wt : ℚ)) - ((c_info p.1).degree_wt : ℚ))
      * k * k

/-- The selection rule exactly as the claim words it: among the keys of
`cluster_local_map` — with `sc` as the starting candidate at gain `0` — take
the maximal gain, breaking every tie towards the smaller community id, then
apply the singleton-pair override.  (Defined from the claim's words, to be
compared against `maxModularity`.) -/
def claimSelect (cluster_local_map : List (ℕ × ℕ)) (counter : List ℕ)
    (self_loop_wt : ℕ) (c_info : ℕ → Comm) (degree_wt sc : ℕ) (k : ℚ) : ℕ :=
  let best := cluster_local_map.foldl (fun acc p =>
    if p.1 = sc then acc
    else
      let cur := claimGain counter self_loop_wt c_info degree_wt sc k p
      if acc.1 < cur ∨ (cur = acc.1 ∧ p.1 < acc.2) then (cur, p.1) else acc)
    ((0 : ℚ), sc)
  if (c_info best.2).size = 1 ∧ (c_info sc).size = 1 ∧ sc < best.2 then sc
  else best.2

/-- The loop invariant of the `maxModularity` scan over the processed prefix
`L`: the running gain is nonnegative and bounds every processed candidate, and
either no processed candidate had positive gain (so the accumulator still holds
`(0, sc)`), or the accumulator holds the maximal gain together with the least
community id attaining it. -/
def MMInv (gf : ℕ × ℕ → ℚ) (sc : ℕ) (L : List (ℕ × ℕ)) (acc : ℚ × ℕ) : Prop :=
  0 ≤ acc.1 ∧ (∀ p ∈ L, p.1 ≠ sc → gf p ≤ acc.1) ∧
    ((acc.1 = 0 ∧ acc.2 = sc) ∨
      (0 < acc.1 ∧ ∃ p ∈ L, p.1 = acc.2 ∧ p.1 ≠ sc ∧ gf p = acc.1 ∧
        ∀ q ∈ L, q.1 ≠ sc → gf q = acc.1 → acc.2 ≤ q.1))

theorem mmStep_inv {gf : ℕ × ℕ → ℚ} {sc : ℕ} {L : List (ℕ × ℕ)} {acc : ℚ × ℕ}
    (h : MMInv gf sc L acc) (p : ℕ × ℕ) :
    MMInv gf sc (L ++ [p]) (mmStep gf sc acc p) := by
  obtain ⟨h0, hub, hthird⟩ := h
  unfold mmStep
  by_cases hp : p.1 = sc
  · simp only [hp, if_pos rfl]
    refine ⟨h0, ?_, ?_⟩
    · intro q hq hqs
      rcases List.mem_append.1 hq with hq | hq
      · exact hub q hq hqs
      · simp only [List.mem_singleton] at hq
        subst hq
        exact absurd hp hqs
    · rcases hthird with hl | ⟨hpos, w, hw, hw1, hw2, hw3, hleast⟩
      · exact Or.inl hl
      · refine Or.inr ⟨hpos, w, List.mem_append_left _ hw, hw1, hw2, hw3, ?_⟩
        intro q hq hqs hqg
        rcases List.mem_append.1 hq with hq | hq
        · exact hleast q hq hqs hqg
        · simp only [List.mem_singleton] at hq
          subst hq
          exact absurd hp hqs
  · simp only [if_neg hp]
    by_cases hcond : acc.1 < gf p ∨ (gf p = acc.1 ∧ gf p ≠ 0 ∧ p.1 < acc.2)
    · simp only [if_pos hcond]
      rcases hcond with hlt | ⟨heq, hne, hid⟩
      · -- strictly better gain: the new candidate is the unique maximizer so far
        refine ⟨le_of_lt (lt_of_le_of_lt h0 hlt), ?_, ?_⟩
        · intro q hq hqs
          rcases List.mem_append.1 hq with hq | hq
          · exact le_of_lt (lt_of_le_of_lt (hub q hq hqs) hlt)
          · simp only [List.mem_singleton] at hq
            subst hq
            exact le_rfl
        · refine Or.inr ⟨lt_of_le_of_lt h0 hlt, p, List.mem_append_right _ (by simp),
            rfl, hp, rfl, ?_⟩
          intro q hq hqs hqg
          rcases List.mem_append.1 hq with hq | hq
          · exact absurd hqg (ne_of_lt (lt_of_le_of_lt (hub q hq hqs) hlt))
          · simp only [List.mem_singleton] at hq
            subst hq
            exact le_rfl
      · -- exact nonzero tie with a smaller id
        have hpos : 0 < acc.1 := lt_of_le_of_ne h0 (fun h => hne (heq.trans h.symm))
        refine ⟨by simpa [heq] using h0, ?_, ?_⟩
        · intro q hq hqs
          rcases List.mem_append.1 hq with hq | hq
          · simpa [heq] using hub q hq hqs
          · simp only [List.mem_singleton] at hq
            subst hq
            simp [heq]
        · rcases hthird with ⟨hz, _⟩ | ⟨_, w, hw, hw1, hw2, hw3, hleast⟩
          · exact absurd hz (ne_of_gt hpos)
          · refine Or.inr ⟨by simpa [heq] using hpos, p,
              List.mem_append_right _ (by simp), rfl, hp, by simp [heq], ?_⟩
            intro q hq hqs hqg
            rw [heq] at hqg
            rcases List.mem_append.1 hq with hq | hq
            · exact le_of_lt (lt_of_lt_of_le hid (hleast q hq hqs hqg))
            · simp only [List.mem_singleton] at hq
              subst hq
              exact le_rfl
    · simp only [if_neg hcond]
      push_neg at hcond
      obtain ⟨hle, htie⟩ := hcond
      refine ⟨h0, ?_, ?_⟩
      · intro q hq hqs
        rcases List.mem_append.1 hq with hq | hq
        · exact hub q hq hqs
        · simp only [List.mem_singleton] at hq
          subst hq
          exact hle
      · rcases hthird with hl | ⟨hpos, w, hw, hw1, hw2, hw3, hleast⟩
        · exact Or.inl hl
        · refine Or.inr ⟨hpos, w, List.mem_append_left _ hw, hw1, hw2, hw3, ?_⟩
          intro q hq hqs hqg
          rcases List.mem_append.1 hq with hq | hq
          · exact hleast q hq hqs hqg
          · simp only [List.mem_singleton] at hq
            subst hq
            exact htie hqg (by rw [hqg]; exact ne_of_gt hpos)

theorem mmFold_inv_aux (gf : ℕ × ℕ → ℚ) (sc : ℕ) :
    ∀ (l L : List (ℕ × ℕ)) (acc : ℚ × ℕ), MMInv gf sc L acc →
      MMInv gf sc (L ++ l) (l.foldl (mmStep gf sc) acc) := by
  intro l
  induction l with
  | nil =>
      intro L acc h
      simpa using h
  | cons q l ih =>
      intro L acc h
      have h1 := mmStep_inv h q
      have h2 := ih (L ++ [q]) (mmStep gf sc acc q) h1
      simpa [List.append_assoc] using h2

/-- The `maxModularity` scan satisfies its invariant over the full map. -/
theorem mmFold_inv (gf : ℕ × ℕ → ℚ) (sc : ℕ) (clm : List (ℕ × ℕ)) :
    MMInv gf sc clm (mmFold gf sc clm) := by
  have h0 : MMInv gf sc [] (0, sc) := by
    refine ⟨le_rfl, by simp, Or.inl ⟨rfl, rfl⟩⟩
  simpa [mmFold] using mmFold_inv_aux gf sc clm [] (0, sc) h0

/-- The community picked by the scan is either `sc` or one of the map's keys. -/
theorem mmFold_mem (gf : ℕ × ℕ → ℚ) (sc : ℕ) (clm : List (ℕ × ℕ)) :
    (mmFold gf sc clm).2 = sc ∨ ∃ p ∈ clm, (mmFold gf sc clm).2 = p.1 := by
  rcases (mmFold_inv gf sc clm).2.2 with ⟨_, h⟩ | ⟨_, p, hp, hp1, _⟩
  · exact Or.inl h
  · exact Or.inr ⟨p, hp, hp1.symm⟩

/-- The result of `maxModularity` is `sc` or one of the map's keys. -/
theorem maxModularity_mem (clm : List (ℕ × ℕ)) (counter : List ℕ)
    (slw : ℕ) (c_info : ℕ → Comm) (dw sc : ℕ) (k : ℚ) :
    maxModularity clm counter slw c_info dw sc k = sc ∨
      ∃ p ∈ clm, maxModularity clm counter slw c_info dw sc k = p.1 := by
  unfold maxModularity
  set gf := codeGain counter slw c_info dw sc k
  by_cases h : (c_info (mmFold gf sc clm).2).size = 1 ∧ (c_info sc).size = 1 ∧
      sc < (mmFold gf sc clm).2
  · rw [if_pos h]
    exact Or.inl rfl
  · rw [if_neg h]
    exact mmFold_mem gf sc clm

theorem codeGain_eq_claimGain (counter : List ℕ) (slw : ℕ) (c_info : ℕ → Comm)
    (dw sc : ℕ) (k : ℚ)
    (h1 : slw ≤ counter.getD 0 0) (h2 : counter.getD 0 0 < U64)
    (h3 : dw ≤ (c_info sc).degree_wt) (h4 : (c_info sc).degree_wt < U64) :
    codeGain counter slw c_info dw sc k = claimGain counter slw c_info dw sc k := by
  funext p
  unfold codeGain claimGain
  rw [sub64_eq_sub h1 h2, sub64_eq_sub h3 h4]
  push_cast [Nat.cast_sub h1, Nat.cast_sub h3]
  ring

/-- C1 counterexample.  Take `cluster_local_map = {1 ↦ 1, 2 ↦ 0}`,
`counter = [1, 1]`, `self_loop_wt = 0`, `degree_wt = 2`, `sc = 2`,
`c_info[1] = {size 1, degree_wt 3}`, `c_info[2] = {size 1, degree_wt 5}`,
`constant = 1`.  Candidate `1` has gain exactly `0` — tied with the starting
candidate `sc = 2` — so the claim's smaller-id tie-break demands community `1`;
the code's extra `cur_gain != 0` condition keeps `sc = 2`. -/
theorem c1_counterexample :
    maxModularity [(1, 1), (2, 0)] [1, 1] 0
        (fun c => if c = 1 then ⟨1, 3⟩ else if c = 2 then ⟨1, 5⟩ else ⟨0, 0⟩)
        2 2 1 = 2 ∧
      claimSelect [(1, 1), (2, 0)] [1, 1] 0
        (fun c => if c = 1 then ⟨1, 3⟩ else if c = 2 then ⟨1, 5⟩ else ⟨0, 0⟩)
        2 2 1 = 1 := by
  constructor
  · norm_num [maxModularity, mmFold, List.foldl, mmStep, codeGain, sub64, U64]
  · norm_num [claimSelect, List.foldl, claimGain]

/-- C1 amended: when the `uint64_t` differences `counter[0] − self_loop_wt`
and `c_info[sc].degree_wt − degree_wt` do not wrap (as in every call the
engine makes), `maxModularity` returns the override of the scan result `M`,
where the scan maximizes the claim's gain `Δ` over the map keys starting from
candidate `sc` at gain `0`, and ties on the maximal gain are broken towards
the smaller community id only when that gain is nonzero: a tie at gain `0`
keeps `sc`.  Finally, if both `M`'s and `sc`'s communities have size `1` and
`M > sc`, the result is `sc`. -/
theorem c1_amended_selection (clm : List (ℕ × ℕ)) (counter : List ℕ)
    (slw : ℕ) (c_info : ℕ → Comm) (dw sc : ℕ) (k : ℚ)
    (h1 : slw ≤ counter.getD 0 0) (h2 : counter.getD 0 0 < U64)
    (h3 : dw ≤ (c_info sc).degree_wt) (h4 : (c_info sc).degree_wt < U64) :
    0 ≤ (mmFold (claimGain counter slw c_info dw sc k) sc clm).1 ∧
    (∀ p ∈ clm, p.1 ≠ sc → claimGain counter slw c_info dw sc k p ≤
      (mmFold (claimGain counter slw c_info dw sc k) sc clm).1) ∧
    (((mmFold (claimGain counter slw c_info dw sc k) sc clm).1 = 0 ∧
        (mmFold (claimGain counter slw c_info dw sc k) sc clm).2 = sc) ∨
      (0 < (mmFold (claimGain counter slw c_info dw sc k) sc clm).1 ∧
        ∃ p ∈ clm, p.1 = (mmFold (claimGain counter slw c_info dw sc k) sc clm).2 ∧
          p.1 ≠ sc ∧
          claimGain counter slw c_info dw sc k p =
            (mmFold (claimGain counter slw c_info dw sc k) sc clm).1 ∧
          ∀ q ∈ clm, q.1 ≠ sc →
            claimGain counter slw c_info dw sc k q =
              (mmFold (claimGain counter slw c_info dw sc k) sc clm).1 →
            (mmFold (claimGain counter slw c_info dw sc k) sc clm).2 ≤ q.1)) ∧
    maxModularity clm counter slw c_info dw sc k =
      (if (c_info (mmFold (claimGain counter slw c_info dw sc k) sc clm).2).size = 1 ∧
          (c_info sc).size = 1 ∧
          sc < (mmFold (claimGain counter slw c_info dw sc k) sc clm).2 then sc
        else (mmFold (claimGain counter slw c_info dw sc k) sc clm).2) := by
  have hg : codeGain counter slw c_info dw sc k = claimGain counter slw c_info dw sc k :=
    codeGain_eq_claimGain counter slw c_info dw sc k h1 h2 h3 h4
  have hinv := mmFold_inv (claimGain counter slw c_info dw sc k) sc clm
  obtain ⟨i0, i1, i2⟩ := hinv
  refine ⟨i0, i1, i2, ?_⟩
  unfold maxModularity
  rw [hg]

/-- C1 amended witness: the amended selection theorem applied at the
counterexample input, where the scan yields `(0, 2)` and the override keeps
`2`. -/
theorem c1_amended_selection_witness :
    (0 : ℕ) ≤ 1 ∧
    maxModularity [(1, 1), (2, 0)] [1, 1] 0
        (fun c => if c = 1 then ⟨1, 3⟩ else if c = 2 then ⟨1, 5⟩ else ⟨0, 0⟩)
        2 2 1 =
      (if ((fun c => if c = 1 then (⟨1, 3⟩ : Comm) else if c = 2 then ⟨1, 5⟩ else ⟨0, 0⟩)
            (mmFold (claimGain [1, 1] 0
              (fun c => if c = 1 then ⟨1, 3⟩ else if c = 2 then ⟨1, 5⟩ else ⟨0, 0⟩) 2 2 1)
              2 [(1, 1), (2, 0)]).2).size = 1 ∧
          ((fun c => if c = 1 then (⟨1, 3⟩ : Comm) else if c = 2 then ⟨1, 5⟩ else ⟨0, 0⟩)
            2).size = 1 ∧
          2 < (mmFold (claimGain [1, 1] 0
              (fun c => if c = 1 then ⟨1, 3⟩ else if c = 2 then ⟨1, 5⟩ else ⟨0, 0⟩) 2 2 1)
              2 [(1, 1), (2, 0)]).2 then 2
        else (mmFold (claimGain [1, 1] 0
            (fun c => if c = 1 then ⟨1, 3⟩ else if c = 2 then ⟨1, 5⟩ else ⟨0, 0⟩) 2 2 1)
            2 [(1, 1), (2, 0)]).2) :=
  ⟨by decide,
    (c1_amended_selection [(1, 1), (2, 0)] [1, 1] 0
      (fun c => if c = 1 then ⟨1, 3⟩ else if c = 2 then ⟨1, 5⟩ else ⟨0, 0⟩)
      2 2 1 (by decide) (by decide) (by decide) (by decide)).2.2.2⟩

/-! ## Louvain engine state (`algoLouvainWithLocking`)

The mutable state the iteration body touches: the per-vertex `curr_comm_ass`
field and the two `std::atomic<uint64_t>` fields of each `Comm` record of
`c_info`.  (`c_update` is zeroed each iteration but all its real uses are
commented out in the source; `cluster_wt_internal` is recomputed from scratch
by the post-pass and is modelled functionally there.) -/

structure LState where
  curr : ℕ → ℕ
  cSize : ℕ → ℕ
  cDw : ℕ → ℕ

/-- `galois::atomicAdd(field[i], amt)` on a `uint64_t` community field. -/
def cInfoAdd (f : ℕ → ℕ) (i amt : ℕ) : ℕ → ℕ := Function.update f i (add64 (f i) amt)

/-- `galois::atomicSubtract(field[i], amt)` on a `uint64_t` community field. -/
def cInfoSub (f : ℕ → ℕ) (i amt : ℕ) : ℕ → ℕ := Function.update f i (sub64 (f i) amt)

/-- The migration block of the iteration body, in source order:
`atomicAdd(c_info[t].degree_wt, dwv); atomicAdd(c_info[t].size, 1);`
`atomicSubtract(c_info[x].degree_wt, dwv); atomicSubtract(c_info[x].size, 1)`. -/
def applyMigration (s : LState) (t x dwv : ℕ) : LState :=
  { s with
    cDw := cInfoSub (cInfoAdd s.cDw t dwv) x dwv
    cSize := cInfoSub (cInfoAdd s.cSize t 1) x 1 }

/-- The `c_info` view handed to `maxModularity`. -/
def commOf (s : LState) : ℕ → Comm := fun c => ⟨s.cSize c, s.cDw c⟩

/-- One edge of the neighbor scan of the iteration body: accumulate
`self_loop_wt`, then either bump `counter` at the dense index the community is
already mapped to, or append a fresh `(community, num_unique_clusters)` entry
and push the weight. -/
def scanStep (curr : ℕ → ℕ) (v : ℕ) (st : List (ℕ × ℕ) × List ℕ × ℕ)
    (e : ℕ × ℕ) : List (ℕ × ℕ) × List ℕ × ℕ :=
  let slw := if e.1 = v then st.2.2 + e.2 else st.2.2
  match List.lookup (curr e.1) st.1 with
  | some idx => (st.1, st.2.1.set idx (st.2.1.getD idx 0 + e.2), slw)
  | none => (st.1 ++ [(curr e.1, st.2.1.length)], st.2.1 ++ [e.2], slw)

/-- The neighbor scan of the iteration body: starting from
`cluster_local_map = {curr_comm(v) ↦ 0}` and `counter = [0]`, fold over `v`'s
edges.  Returns `(cluster_local_map, counter, self_loop_wt)`. -/
def scanNeighbors (curr : ℕ → ℕ) (v : ℕ) (edges : List (ℕ × ℕ)) :
    List (ℕ × ℕ) × List ℕ × ℕ :=
  edges.foldl (scanStep curr v) ([(curr v, 0)], [0], 0)

/-- The `local_target` chosen by the iteration body for vertex `v`:
`maxModularity` over the scanned neighborhood when `v` has edges, else the
sentinel `(uint64_t)(-1)`. -/
def louvainBodyTarget (g : CSRGraph) (k : ℚ) (s : LState) (v : ℕ) : ℕ :=
  let degree := degreeOf g v
  if 0 < degree then
    let scan := scanNeighbors s.curr v (edgesOf g v)
    maxModularity scan.1 scan.2.1 scan.2.2 (commOf s) (degWt g v) (s.curr v) k
  else NEG1

/-- The whole iteration body for vertex `v`: choose `local_target`; if it
differs from `curr_comm_ass(v)` and from `-1`, perform the atomic migration;
finally store `local_target` into `curr_comm_ass(v)` (the source does this
store unconditionally). -/
def louvainBodyStep (g : CSRGraph) (k : ℚ) (s : LState) (v : ℕ) : LState :=
  let local_target := louvainBodyTarget g k s v
  let s1 := if local_target ≠ s.curr v ∧ local_target ≠ NEG1 then
      applyMigration s local_target (s.curr v) (degWt g v)
    else s
  { s1 with curr := Function.update s1.curr v local_target }

/-- The engine state right after the per-phase initialization
(`curr_comm_ass = prev_comm_ass = n` and `sumVertexDegreeWeight`). -/
def initLState (g : CSRGraph) : LState :=
  { curr := fun v => v
    cSize := fun c => if c < g.n then 1 else 0
    cDw := fun c => if c < g.n then degWt g c else 0 }

/-- The exact rational value of `calConstantForSecondTerm`
(`1 / Σ_v degree_wt(v)`) as consumed by the per-vertex gain computation:
this is exactly the `double` the source computes whenever the total weighted
degree is nonzero.  On a zero total the source's `double` is `+inf`; the
fully faithful constant, infinity included, is `calConstantForSecondTermD`
below, and `toRat_calConstantForSecondTermD` links the two (Lean's
`1 / 0 = 0` coincides with `DVal.toRat`'s junk value on non-finite input, a
case in which no gain is computed in any claim treated here). -/
def calConstantForSecondTerm (g : CSRGraph) : ℚ :=
  1 / ((∑ v ∈ Finset.range g.n, degWt g v : ℕ) : ℚ)

/-- `cluster_wt_internal[v]` as recomputed by the post-pass: the weight of
`v`'s edges into `v`'s own current community. -/
def clusterWtInternal (g : CSRGraph) (s : LState) (v : ℕ) : ℕ :=
  (((edgesOf g v).filter (fun e => s.curr e.1 = s.curr v)).map Prod.snd).sum

/-- `e_xx = Σ_v cluster_wt_internal[v]`. -/
def exx (g : CSRGraph) (s : LState) : ℕ :=
  ∑ v ∈ Finset.range g.n, clusterWtInternal g s v

/-- `a2_x = Σ_n c_info[n].degree_wt²`. -/
def a2x (g : CSRGraph) (s : LState) : ℕ :=
  ∑ v ∈ Finset.range g.n, s.cDw v * s.cDw v

/-- The `double` values the convergence loop manipulates: an exact finite
value (the quantities here are integer-valued sums and their exact ratios, so
no rounding is involved for them), one of the two infinities, or a NaN. -/
inductive DVal where
  | fin (q : ℚ)
  | inf
  | neginf
  | nan
deriving DecidableEq

/-- IEEE multiplication on these values: NaN propagates, `0 * ±inf = NaN`,
sign rules for infinities, and exact finite products. -/
def dMul : DVal → DVal → DVal
  | .nan, _ => .nan
  | _, .nan => .nan
  | .fin a, .fin b => .fin (a * b)
  | .fin a, .inf => if 0 < a then .inf else if a < 0 then .neginf else .nan
  | .fin a, .neginf => if 0 < a then .neginf else if a < 0 then .inf else .nan
  | .inf, .fin b => if 0 < b then .inf else if b < 0 then .neginf else .nan
  | .neginf, .fin b => if 0 < b then .neginf else if b < 0 then .inf else .nan
  | .inf, .inf => .inf
  | .inf, .neginf => .neginf
  | .neginf, .inf => .neginf
  | .neginf, .neginf => .inf

/-- IEEE subtraction: NaN propagates, `inf - inf = NaN`, infinities absorb
finite values, and exact finite differences. -/
def dSub : DVal → DVal → DVal
  | .nan, _ => .nan
  | _, .nan => .nan
  | .fin a, .fin b => .fin (a - b)
  | .fin _, .inf => .neginf
  | .fin _, .neginf => .inf
  | .inf, .fin _ => .inf
  | .neginf, .fin _ => .neginf
  | .inf, .inf => .nan
  | .inf, .neginf => .inf
  | .neginf, .inf => .neginf
  | .neginf, .neginf => .nan

/-- IEEE `<`: every comparison involving a NaN is false. -/
def dLt : DVal → DVal → Bool
  | .nan, _ => false
  | _, .nan => false
  | .fin a, .fin b => decide (a < b)
  | .fin _, .inf => true
  | .fin _, .neginf => false
  | .inf, _ => false
  | .neginf, .inf => true
  | .neginf, .fin _ => true
  | .neginf, .neginf => false

/-- The rational a `DVal` contributes to the per-vertex gain computation,
which is modelled exactly over `ℚ`.  A non-finite constant (reachable only
when the total edge weight is `0`) carries no exact rational and maps to the
junk value `0`; on such graphs the source's own gain arithmetic would be
NaN-valued, a situation outside every claim treated here. -/
def DVal.toRat : DVal → ℚ
  | .fin q => q
  | _ => 0

/-- `calConstantForSecondTerm` with full IEEE semantics:
`1/(double)total_edge_weight_twice` is `+inf` when the total weighted degree
is `0`, and the exact ratio otherwise. -/
def calConstantForSecondTermD (g : CSRGraph) : DVal :=
  if (∑ v ∈ Finset.range g.n, degWt g v) = 0 then DVal.inf
  else DVal.fin (1 / ((∑ v ∈ Finset.range g.n, degWt g v : ℕ) : ℚ))

theorem toRat_calConstantForSecondTermD (g : CSRGraph) :
    (calConstantForSecondTermD g).toRat = calConstantForSecondTerm g := by
  unfold calConstantForSecondTermD calConstantForSecondTerm
  by_cases h : (∑ v ∈ Finset.range g.n, degWt g v) = 0
  · rw [if_pos h, h]
    simp [DVal.toRat]
  · rw [if_neg h]
    rfl

/-- `curr_mod = e_xx * constant - a2_x * constant * constant`, with the IEEE
behavior of the `double` constant. -/
def currModularityD (g : CSRGraph) (s : LState) (k : DVal) : DVal :=
  dSub (dMul (DVal.fin (exx g s : ℚ)) k) (dMul (dMul (DVal.fin (a2x g s : ℚ)) k) k)

/-- The `while(true)` convergence loop of `algoLouvainWithLocking` with
explicit fuel, processing vertices sequentially in id order inside each
iteration.  Returns `some (returned modularity, num_iter)` when the
convergence test `curr_mod - prev_mod < threshold` breaks within `fuel`
iterations (the function returns `prev_mod`), and `none` when `fuel`
iterations elapse without a break — in particular, a loop whose test is
NaN-poisoned returns `none` for every fuel. -/
def louvainLoop (g : CSRGraph) (k threshold : DVal) :
    ℕ → DVal → LState → ℕ → Option (DVal × ℕ)
  | 0, _, _, _ => none
  | fuel + 1, prev_mod, s, num_iter =>
    let s1 := (List.range g.n).foldl (louvainBodyStep g k.toRat) s
    let curr_mod := currModularityD g s1 k
    if dLt (dSub curr_mod prev_mod) threshold then some (prev_mod, num_iter + 1)
    else louvainLoop g k threshold fuel curr_mod s1 (num_iter + 1)

/-- `algoLouvainWithLocking(graph, clusters, lower, threshold)`: initialize,
compute the normalizer, then run the convergence loop.  (`lower` is the
`curr_mod` the multi-phase driver passes in, `-1` for phase 1.) -/
def algoLouvainWithLocking (g : CSRGraph) (lower threshold : DVal) (fuel : ℕ) :
    Option (DVal × ℕ) :=
  louvainLoop g (calConstantForSecondTermD g) threshold fuel lower (initLState g) 0

/-! ### C4: migration conservation -/

theorem sum_update_split (f : ℕ → ℕ) (s : Finset ℕ) (i b : ℕ) (h : i ∈ s) :
    ∑ c ∈ s, Function.update f i b c = b + ∑ c ∈ s.erase i, f c := by
  rw [← Finset.add_sum_erase s (Function.update f i b) h]
  congr 1
  · simp
  · exact Finset.sum_congr rfl
      (fun c hc => Function.update_noteq (Finset.ne_of_mem_erase hc) _ _)

/-- C4: a migration with target `t ≠ x`, as performed by the iteration body
when the chosen target differs from the current community and from `-1`, adds
`(dwv, 1)` to `c_info[t]`, subtracts `(dwv, 1)` from `c_info[x]`, touches no
other community, and leaves `Σ_c c_info[c].degree_wt` unchanged (hypotheses:
`t, x` are communities of the table and the `uint64` updates do not wrap,
which the community-aggregate invariant guarantees in every reachable
state). -/
theorem c4_migration_conservation (s : LState) (t x dwv n : ℕ)
    (htx : t ≠ x) (ht : t < n) (hx : x < n)
    (hsub : dwv ≤ s.cDw x) (hxb : s.cDw x < U64) (htb : s.cDw t + dwv < U64)
    (hs1 : 1 ≤ s.cSize x) (hsxb : s.cSize x < U64) (hstb : s.cSize t + 1 < U64) :
    (applyMigration s t x dwv).cDw t = s.cDw t + dwv ∧
    (applyMigration s t x dwv).cDw x = s.cDw x - dwv ∧
    (applyMigration s t x dwv).cSize t = s.cSize t + 1 ∧
    (applyMigration s t x dwv).cSize x = s.cSize x - 1 ∧
    (∀ c, c ≠ t → c ≠ x → (applyMigration s t x dwv).cDw c = s.cDw c ∧
      (applyMigration s t x dwv).cSize c = s.cSize c) ∧
    ∑ c ∈ Finset.range n, (applyMigration s t x dwv).cDw c
      = ∑ c ∈ Finset.range n, s.cDw c := by
  have hxt : x ≠ t := Ne.symm htx
  have hDw : (applyMigration s t x dwv).cDw
      = Function.update (Function.update s.cDw t (s.cDw t + dwv)) x (s.cDw x - dwv) := by
    show cInfoSub (cInfoAdd s.cDw t dwv) x dwv = _
    unfold cInfoSub cInfoAdd
    rw [Function.update_noteq hxt, add64_eq_add htb, sub64_eq_sub hsub hxb]
  have hSize : (applyMigration s t x dwv).cSize
      = Function.update (Function.update s.cSize t (s.cSize t + 1)) x (s.cSize x - 1) := by
    show cInfoSub (cInfoAdd s.cSize t 1) x 1 = _
    unfold cInfoSub cInfoAdd
    rw [Function.update_noteq hxt, add64_eq_add hstb, sub64_eq_sub hs1 hsxb]
  refine ⟨?_, ?_, ?_, ?_, ?_, ?_⟩
  · rw [hDw, Function.update_noteq htx, Function.update_same]
  · rw [hDw, Function.update_same]
  · rw [hSize, Function.update_noteq htx, Function.update_same]
  · rw [hSize, Function.update_same]
  · intro c hct hcx
    constructor
    · rw [hDw, Function.update_noteq hcx, Function.update_noteq hct]
    · rw [hSize, Function.update_noteq hcx, Function.update_noteq hct]
  · rw [hDw]
    have hxmem : x ∈ Finset.range n := Finset.mem_range.2 hx
    have htmem : t ∈ (Finset.range n).erase x :=
      Finset.mem_erase.2 ⟨htx, Finset.mem_range.2 ht⟩
    rw [sum_update_split _ _ _ _ hxmem, sum_update_split _ _ _ _ htmem]
    rw [← Finset.add_sum_erase (Finset.range n) s.cDw hxmem,
      ← Finset.add_sum_erase ((Finset.range n).erase x) s.cDw htmem]
    omega

/-- C4 witness: a concrete migration (`t = 1`, `x = 0`, `dwv = 2` over a
three-community table) with all hypotheses discharged. -/
theorem c4_migration_conservation_witness :
    (applyMigration ⟨id, fun _ => 1, fun c => 2 + c⟩ 1 0 2).cDw 1 = 3 + 2 ∧
    ∑ c ∈ Finset.range 3, (applyMigration ⟨id, fun _ => 1, fun c => 2 + c⟩ 1 0 2).cDw c
      = ∑ c ∈ Finset.range 3, (2 + c) := by
  have h := c4_migration_conservation ⟨id, fun _ => 1, fun c => 2 + c⟩ 1 0 2 3
    (by decide) (by decide) (by decide) (by decide) (by decide) (by decide)
    (by decide) (by decide) (by decide)
  exact ⟨h.1, h.2.2.2.2.2⟩

/-! ### C7: the edgeless two-vertex graph

With no edges, `total_edge_weight_twice = 0`, so the source computes
`constant_for_second_term = 1/0.0 = +inf`.  `e_xx` and `a2_x` are both `0`,
hence `curr_mod = 0.0 * inf - 0.0 * inf * inf = NaN`, and the convergence
test `curr_mod - prev_mod < threshold` compares against a NaN and is false in
every iteration: the loop never breaks.  The theorems below prove exactly
this over the IEEE-faithful `DVal` loop. -/

theorem exx_twoIsolated (s : LState) : exx twoIsolated s = 0 := by
  have hd0 : degreeOf twoIsolated 0 = 0 := by decide
  have hd1 : degreeOf twoIsolated 1 = 0 := by decide
  unfold exx
  rw [show twoIsolated.n = 2 from rfl, Finset.sum_range_succ,
    Finset.sum_range_succ, Finset.sum_range_zero]
  simp [clusterWtInternal, edgesOf, hd0, hd1]

theorem calConstantD_twoIsolated :
    calConstantForSecondTermD twoIsolated = DVal.inf := by
  unfold calConstantForSecondTermD
  rw [if_pos (by decide)]

/-- With the infinite normalizer, every iteration of the loop on the edgeless
two-vertex graph computes `curr_mod = 0 * inf - … = NaN`, whatever the
current state. -/
theorem currModD_twoIsolated (s : LState) :
    currModularityD twoIsolated s DVal.inf = DVal.nan := by
  unfold currModularityD
  rw [exx_twoIsolated]
  norm_num [dMul, dSub]

/-- The NaN-poisoned convergence test never breaks: the fueled loop on the
edgeless two-vertex graph returns `none` for every fuel, threshold, starting
modularity, state and iteration count. -/
theorem louvainLoop_twoIsolated_none :
    ∀ (fuel : ℕ) (threshold prev_mod : DVal) (s : LState) (num_iter : ℕ),
      louvainLoop twoIsolated DVal.inf threshold fuel prev_mod s num_iter = none := by
  intro fuel
  induction fuel with
  | zero =>
      intro threshold prev_mod s num_iter
      rfl
  | succ fuel ih =>
      intro threshold prev_mod s num_iter
      simp only [louvainLoop]
      rw [currModD_twoIsolated]
      simp only [dSub, dLt, Bool.false_eq_true, if_false]
      exact ih threshold _ _ _

/-- C7 counterexample: on the edgeless two-vertex graph the convergence loop
of `algoLouvainWithLocking` does not break — with fuel for eight iterations
the run is still going (`none`), so in particular it did not terminate after
one iteration with `Q = 0`: the total edge weight `0` makes the normalizer
`+inf` and every `curr_mod` a NaN. -/
theorem c7_counterexample :
    algoLouvainWithLocking twoIsolated (DVal.fin (-1)) (DVal.fin (1 / 100)) 8
      = none := by
  unfold algoLouvainWithLocking
  rw [calConstantD_twoIsolated]
  exact louvainLoop_twoIsolated_none 8 _ _ _ _

/-- C7 amended: on the edgeless two-vertex graph, `vertexFollowing` marks both
vertices isolated (`clusters = (uint64_t)(-1)`); but `algoLouvainWithLocking`
neither computes `Q = 0` nor terminates: `calConstantForSecondTerm` divides by
the zero total edge weight, giving `+inf`, every iteration's `curr_mod` is
`NaN`, the test `NaN - prev_mod < threshold` is false, and the convergence
loop never breaks — the fueled embedding returns `none` for every fuel. -/
theorem c7_amended :
    vfClusterUpdate twoIsolated 0 = some NEG1 ∧
    vfClusterUpdate twoIsolated 1 = some NEG1 ∧
    calConstantForSecondTermD twoIsolated = DVal.inf ∧
    ∀ fuel : ℕ,
      algoLouvainWithLocking twoIsolated (DVal.fin (-1)) (DVal.fin (1 / 100)) fuel
        = none := by
  refine ⟨by decide, by decide, calConstantD_twoIsolated, ?_⟩
  intro fuel
  unfold algoLouvainWithLocking
  rw [calConstantD_twoIsolated]
  exact louvainLoop_twoIsolated_none fuel _ _ _ _

/-! ### C2: the community-aggregate invariant

The spec's invariant: `c_info[c].size` is the number of vertices currently
assigned to `c`, `c_info[c].degree_wt` the sum of their weighted degrees. -/

/-- The number of vertices with `curr_comm_ass = c`. -/
def commCount (g : CSRGraph) (s : LState) (c : ℕ) : ℕ :=
  ∑ v ∈ Finset.range g.n, if s.curr v = c then 1 else 0

/-- The sum of `degree_wt` over vertices with `curr_comm_ass = c`. -/
def commDwSum (g : CSRGraph) (s : LState) (c : ℕ) : ℕ :=
  ∑ v ∈ Finset.range g.n, if s.curr v = c then degWt g v else 0

/-- Every vertex is assigned to a community id inside the table. -/
def CurrValid (g : CSRGraph) (s : LState) : Prop :=
  ∀ v, v < g.n → s.curr v < g.n

/-- The claimed invariant: each `c_info` record agrees with the assignment. -/
def CommAgg (g : CSRGraph) (s : LState) : Prop :=
  ∀ c, c < g.n → s.cSize c = commCount g s c ∧ s.cDw c = commDwSum g s c

/-- The CSR arrays describe a graph: every destination is a vertex. -/
def WellFormed (g : CSRGraph) : Prop :=
  ∀ v, v < g.n → ∀ e ∈ edgesOf g v, e.1 < g.n

/-- No degree-zero vertices. -/
def NoIsolated (g : CSRGraph) : Prop :=
  ∀ v, v < g.n → 0 < degreeOf g v

theorem scanStep_keys (curr : ℕ → ℕ) (v : ℕ) (P : ℕ → Prop)
    (st : List (ℕ × ℕ) × List ℕ × ℕ) (e : ℕ × ℕ)
    (hst : ∀ p ∈ st.1, P p.1) (he : P (curr e.1)) :
    ∀ p ∈ (scanStep curr v st e).1, P p.1 := by
  intro p hp
  cases hl : List.lookup (curr e.1) st.1 with
  | some idx =>
      simp only [scanStep, hl] at hp
      exact hst p hp
  | none =>
      simp only [scanStep, hl] at hp
      rcases List.mem_append.1 hp with h1 | h1
      · exact hst p h1
      · simp only [List.mem_singleton] at h1
        subst h1
        exact he

theorem scan_keys_aux (curr : ℕ → ℕ) (v : ℕ) (P : ℕ → Prop) :
    ∀ (edges : List (ℕ × ℕ)) (st : List (ℕ × ℕ) × List ℕ × ℕ),
      (∀ p ∈ st.1, P p.1) → (∀ e ∈ edges, P (curr e.1)) →
      ∀ p ∈ (edges.foldl (scanStep curr v) st).1, P p.1 := by
  intro edges
  induction edges with
  | nil =>
      intro st hst _
      simpa using hst
  | cons e edges ih =>
      intro st hst he
      have hst2 : ∀ p ∈ (scanStep curr v st e).1, P p.1 :=
        scanStep_keys curr v P st e hst (he e (List.mem_cons_self e edges))
      intro p hp
      exact ih (scanStep curr v st e) hst2
        (fun e2 h2 => he e2 (List.mem_cons_of_mem _ h2)) p hp

/-- Every key of `cluster_local_map` is the current community of `v` or of one
of `v`'s neighbors. -/
theorem scanNeighbors_keys (curr : ℕ → ℕ) (v : ℕ) (edges : List (ℕ × ℕ))
    (P : ℕ → Prop) (hv : P (curr v)) (he : ∀ e ∈ edges, P (curr e.1)) :
    ∀ p ∈ (scanNeighbors curr v edges).1, P p.1 := by
  refine scan_keys_aux curr v P edges ([(curr v, 0)], [0], 0) ?_ he
  intro p hp
  simp only [List.mem_singleton] at hp
  subst hp
  exact hv

/-- For a vertex with edges, the chosen `local_target` is a community id of
the table (in particular it is not the sentinel `-1`). -/
theorem louvainBodyTarget_lt (g : CSRGraph) (k : ℚ) (s : LState) (v : ℕ)
    (hwf : WellFormed g) (hv : v < g.n) (hval : CurrValid g s)
    (hdeg : 0 < degreeOf g v) :
    louvainBodyTarget g k s v < g.n := by
  unfold louvainBodyTarget
  rw [if_pos hdeg]
  have hkeys : ∀ p ∈ (scanNeighbors s.curr v (edgesOf g v)).1, p.1 < g.n :=
    scanNeighbors_keys s.curr v (edgesOf g v) (fun c => c < g.n)
      (hval v hv) (fun e he => hval e.1 (hwf v hv e he))
  rcases maxModularity_mem (scanNeighbors s.curr v (edgesOf g v)).1
      (scanNeighbors s.curr v (edgesOf g v)).2.1
      (scanNeighbors s.curr v (edgesOf g v)).2.2
      (commOf s) (degWt g v) (s.curr v) k with h | ⟨p, hp, h⟩
  · rw [h]
    exact hval v hv
  · rw [h]
    exact hkeys p hp

theorem sum_ite_update (n v t c : ℕ) (curr : ℕ → ℕ) (val : ℕ → ℕ)
    (hv : v ∈ Finset.range n) :
    ∑ u ∈ Finset.range n, (if Function.update curr v t u = c then val u else 0)
      = (if t = c then val v else 0)
        + ∑ u ∈ (Finset.range n).erase v, (if curr u = c then val u else 0) := by
  have h1 : ∀ u ∈ Finset.range n,
      (if Function.update curr v t u = c then val u else 0)
        = Function.update (fun u => if curr u = c then val u else 0) v
            (if t = c then val v else 0) u := by
    intro u _
    by_cases hu : u = v
    · subst hu
      simp
    · simp [Function.update_noteq hu]
  rw [Finset.sum_congr rfl h1]
  exact sum_update_split _ _ _ _ hv

theorem sum_ite_erase (n v c : ℕ) (curr : ℕ → ℕ) (val : ℕ → ℕ)
    (hv : v ∈ Finset.range n) :
    ∑ u ∈ Finset.range n, (if curr u = c then val u else 0)
      = (if curr v = c then val v else 0)
        + ∑ u ∈ (Finset.range n).erase v, (if curr u = c then val u else 0) :=
  (Finset.add_sum_erase (Finset.range n) _ hv).symm

theorem initLState_valid (g : CSRGraph) : CurrValid g (initLState g) :=
  fun _ hv => hv

theorem initLState_agg (g : CSRGraph) : CommAgg g (initLState g) := by
  intro c hc
  constructor
  · show (if c < g.n then 1 else 0) = commCount g (initLState g) c
    rw [if_pos hc]
    unfold commCount
    simp only [initLState]
    rw [Finset.sum_ite_eq' (Finset.range g.n) c (fun _ => 1)]
    rw [if_pos (Finset.mem_range.2 hc)]
  · show (if c < g.n then degWt g c else 0) = commDwSum g (initLState g) c
    rw [if_pos hc]
    unfold commDwSum
    simp only [initLState]
    rw [Finset.sum_ite_eq' (Finset.range g.n) c (fun v => degWt g v)]
    rw [if_pos (Finset.mem_range.2 hc)]

theorem sum_commCount (g : CSRGraph) (s : LState) (hval : CurrValid g s) :
    ∑ c ∈ Finset.range g.n, commCount g s c = g.n := by
  unfold commCount
  rw [Finset.sum_comm]
  have h1 : ∀ v ∈ Finset.range g.n,
      (∑ c ∈ Finset.range g.n, if s.curr v = c then 1 else 0) = 1 := by
    intro v hv
    rw [Finset.sum_ite_eq (Finset.range g.n) (s.curr v) (fun _ => 1)]
    rw [if_pos (Finset.mem_range.2 (hval v (Finset.mem_range.1 hv)))]
  rw [Finset.sum_congr rfl h1]
  simp

theorem commCount_le (g : CSRGraph) (s : LState) (c : ℕ) :
    commCount g s c ≤ g.n := by
  unfold commCount
  have h1 : ∑ v ∈ Finset.range g.n, (if s.curr v = c then 1 else 0)
      ≤ ∑ _v ∈ Finset.range g.n, 1 :=
    Finset.sum_le_sum (fun i _ => by by_cases h : s.curr i = c <;> simp [h])
  simpa using h1

theorem commDwSum_le (g : CSRGraph) (s : LState) (c : ℕ) :
    commDwSum g s c ≤ ∑ u ∈ Finset.range g.n, degWt g u :=
  Finset.sum_le_sum (fun i _ => by by_cases h : s.curr i = c <;> simp [h])

theorem one_le_commCount (g : CSRGraph) (s : LState) (v : ℕ)
    (hv : v ∈ Finset.range g.n) : 1 ≤ commCount g s (s.curr v) := by
  have h := Finset.single_le_sum
    (f := fun u => if s.curr u = s.curr v then (1 : ℕ) else 0)
    (fun i _ => Nat.zero_le _) hv
  simpa [commCount] using h

theorem le_commDwSum (g : CSRGraph) (s : LState) (v : ℕ)
    (hv : v ∈ Finset.range g.n) : degWt g v ≤ commDwSum g s (s.curr v) := by
  have h := Finset.single_le_sum
    (f := fun u => if s.curr u = s.curr v then degWt g u else 0)
    (fun i _ => Nat.zero_le _) hv
  simpa [commDwSum] using h

theorem commCount_add_one_le (g : CSRGraph) (s : LState) (c v : ℕ)
    (hv : v ∈ Finset.range g.n) (hne : s.curr v ≠ c) :
    commCount g s c + 1 ≤ g.n := by
  unfold commCount
  rw [sum_ite_erase g.n v c s.curr (fun _ => 1) hv, if_neg hne]
  have h1 : ∑ u ∈ (Finset.range g.n).erase v, (if s.curr u = c then (1 : ℕ) else 0)
      ≤ ∑ _u ∈ (Finset.range g.n).erase v, 1 :=
    Finset.sum_le_sum (fun i _ => by by_cases h : s.curr i = c <;> simp [h])
  have h2 : ∑ _u ∈ (Finset.range g.n).erase v, (1 : ℕ)
      = ((Finset.range g.n).erase v).card := by simp
  have h3 : ((Finset.range g.n).erase v).card = g.n - 1 := by
    rw [Finset.card_erase_of_mem hv, Finset.card_range]
  have h4 : 1 ≤ g.n := Nat.one_le_iff_ne_zero.2
    (fun h => by simp [h] at hv)
  omega

theorem commDwSum_add_le (g : CSRGraph) (s : LState) (c v : ℕ)
    (hv : v ∈ Finset.range g.n) (hne : s.curr v ≠ c) :
    commDwSum g s c + degWt g v ≤ ∑ u ∈ Finset.range g.n, degWt g u := by
  unfold commDwSum
  rw [sum_ite_erase g.n v c s.curr (degWt g) hv, if_neg hne]
  have h1 : ∑ u ∈ (Finset.range g.n).erase v, (if s.curr u = c then degWt g u else 0)
      ≤ ∑ u ∈ (Finset.range g.n).erase v, degWt g u :=
    Finset.sum_le_sum (fun i _ => by by_cases h : s.curr i = c <;> simp [h])
  have h2 : ∑ u ∈ Finset.range g.n, degWt g u
      = degWt g v + ∑ u ∈ (Finset.range g.n).erase v, degWt g u :=
    (Finset.add_sum_erase (Finset.range g.n) (degWt g) hv).symm
  omega

theorem applyMigration_cDw (s : LState) (t x dwv : ℕ) (hxt : x ≠ t)
    (hsub : dwv ≤ s.cDw x) (hxb : s.cDw x < U64) (htb : s.cDw t + dwv < U64) :
    (applyMigration s t x dwv).cDw
      = Function.update (Function.update s.cDw t (s.cDw t + dwv)) x (s.cDw x - dwv) := by
  show cInfoSub (cInfoAdd s.cDw t dwv) x dwv = _
  unfold cInfoSub cInfoAdd
  rw [Function.update_noteq hxt, add64_eq_add htb, sub64_eq_sub hsub hxb]

theorem applyMigration_cSize (s : LState) (t x : ℕ) (dwv : ℕ) (hxt : x ≠ t)
    (hs1 : 1 ≤ s.cSize x) (hsxb : s.cSize x < U64) (hstb : s.cSize t + 1 < U64) :
    (applyMigration s t x dwv).cSize
      = Function.update (Function.update s.cSize t (s.cSize t + 1)) x (s.cSize x - 1) := by
  show cInfoSub (cInfoAdd s.cSize t 1) x 1 = _
  unfold cInfoSub cInfoAdd
  rw [Function.update_noteq hxt, add64_eq_add hstb, sub64_eq_sub hs1 hsxb]

/-- Counting after a migration: updating the two touched `c_info` entries of a
per-community aggregate `F` matches re-counting against the updated
assignment, for every community `c` of the table. -/
theorem update_pair_count (n v t : ℕ) (curr : ℕ → ℕ) (val : ℕ → ℕ) (F : ℕ → ℕ)
    (c : ℕ) (hvmem : v ∈ Finset.range n) (hxt : curr v ≠ t)
    (hF : ∀ d, d < n → F d = ∑ u ∈ Finset.range n, if curr u = d then val u else 0)
    (hcn : c < n) (htn : t < n) :
    Function.update (Function.update F t (F t + val v)) (curr v) (F (curr v) - val v) c
      = ∑ u ∈ Finset.range n, if Function.update curr v t u = c then val u else 0 := by
  have hvn : v < n := Finset.mem_range.1 hvmem
  rw [sum_ite_update n v t c curr val hvmem]
  have hx_split := sum_ite_erase n v (curr v) curr val hvmem
  have ht_split := sum_ite_erase n v t curr val hvmem
  have hc_split := sum_ite_erase n v c curr val hvmem
  rcases eq_or_ne c t with rfl | hct
  · -- `c = t`: the target gains `val v`
    rw [Function.update_noteq (Ne.symm hxt), Function.update_same, if_pos rfl]
    rw [hF c htn, ht_split, if_neg hxt]
    omega
  · rcases eq_or_ne c (curr v) with rfl | hcx
    · -- `c = curr v`: the source loses `val v`
      rw [Function.update_same, if_neg (fun h => hct h.symm)]
      rw [hF (curr v) hcn, hx_split, if_pos rfl]
      omega
    · -- untouched community
      rw [Function.update_noteq (fun h => hcx h), Function.update_noteq hct,
        if_neg (fun h => hct h.symm)]
      rw [hF c hcn, hc_split, if_neg (fun h => hcx h.symm)]

/-- A migration step (target `t ≠ curr_comm(v)`, `t` a table community)
followed by the `curr_comm_ass` store preserves validity and the aggregate
invariant. -/
theorem migStep_preserves (g : CSRGraph) (s : LState) (v t : ℕ)
    (hv : v < g.n) (ht : t < g.n) (hneq : t ≠ s.curr v)
    (hn : g.n < U64) (hW : ∑ u ∈ Finset.range g.n, degWt g u < U64)
    (hval : CurrValid g s) (hagg : CommAgg g s) :
    CurrValid g { applyMigration s t (s.curr v) (degWt g v) with
        curr := Function.update s.curr v t } ∧
    CommAgg g { applyMigration s t (s.curr v) (degWt g v) with
        curr := Function.update s.curr v t } := by
  have hvmem : v ∈ Finset.range g.n := Finset.mem_range.2 hv
  have hxn : s.curr v < g.n := hval v hv
  have hxt : s.curr v ≠ t := Ne.symm hneq
  have e1 : s.cDw (s.curr v) = commDwSum g s (s.curr v) := (hagg (s.curr v) hxn).2
  have e2 : s.cDw t = commDwSum g s t := (hagg t ht).2
  have e3 : s.cSize (s.curr v) = commCount g s (s.curr v) := (hagg (s.curr v) hxn).1
  have e4 : s.cSize t = commCount g s t := (hagg t ht).1
  have hdw_ge : degWt g v ≤ s.cDw (s.curr v) := by
    rw [e1]
    exact le_commDwSum g s v hvmem
  have hdw_lt : s.cDw (s.curr v) < U64 := by
    rw [e1]
    exact lt_of_le_of_lt (commDwSum_le g s (s.curr v)) hW
  have hdwt_lt : s.cDw t + degWt g v < U64 := by
    rw [e2]
    exact lt_of_le_of_lt (commDwSum_add_le g s t v hvmem hxt) hW
  have hsz_ge : 1 ≤ s.cSize (s.curr v) := by
    rw [e3]
    exact one_le_commCount g s v hvmem
  have hsz_lt : s.cSize (s.curr v) < U64 := by
    rw [e3]
    exact lt_of_le_of_lt (commCount_le g s (s.curr v)) hn
  have hszt_lt : s.cSize t + 1 < U64 := by
    rw [e4]
    exact lt_of_le_of_lt (commCount_add_one_le g s t v hvmem hxt) hn
  have hDw := applyMigration_cDw s t (s.curr v) (degWt g v) hxt hdw_ge hdw_lt hdwt_lt
  have hSz := applyMigration_cSize s t (s.curr v) (degWt g v) hxt hsz_ge hsz_lt hszt_lt
  constructor
  · intro u hu
    show Function.update s.curr v t u < g.n
    rcases eq_or_ne u v with rfl | huv
    · rw [Function.update_same]
      exact ht
    · rw [Function.update_noteq huv]
      exact hval u hu
  · intro c hcn
    constructor
    · show (applyMigration s t (s.curr v) (degWt g v)).cSize c = _
      rw [hSz]
      exact update_pair_count g.n v t s.curr (fun _ => 1) s.cSize c hvmem hxt
        (fun d hd => (hagg d hd).1) hcn ht
    · show (applyMigration s t (s.curr v) (degWt g v)).cDw c = _
      rw [hDw]
      exact update_pair_count g.n v t s.curr (degWt g) s.cDw c hvmem hxt
        (fun d hd => (hagg d hd).2) hcn ht

theorem louvainBodyStep_no_mig (g : CSRGraph) (k : ℚ) (s : LState) (v : ℕ)
    (h : ¬(louvainBodyTarget g k s v ≠ s.curr v ∧ louvainBodyTarget g k s v ≠ NEG1)) :
    louvainBodyStep g k s v
      = { s with curr := Function.update s.curr v (louvainBodyTarget g k s v) } := by
  simp only [louvainBodyStep, if_neg h]

theorem louvainBodyStep_mig (g : CSRGraph) (k : ℚ) (s : LState) (v : ℕ)
    (h : louvainBodyTarget g k s v ≠ s.curr v ∧ louvainBodyTarget g k s v ≠ NEG1) :
    louvainBodyStep g k s v
      = { applyMigration s (louvainBodyTarget g k s v) (s.curr v) (degWt g v) with
          curr := Function.update s.curr v (louvainBodyTarget g k s v) } := by
  simp only [louvainBodyStep, if_pos h]
  rfl

/-- One execution of the iteration body on a vertex of a graph without
isolated vertices preserves validity and the aggregate invariant. -/
theorem louvainBodyStep_preserves (g : CSRGraph) (k : ℚ) (s : LState) (v : ℕ)
    (hwf : WellFormed g) (hiso : NoIsolated g) (hn : g.n < U64)
    (hW : ∑ u ∈ Finset.range g.n, degWt g u < U64)
    (hv : v < g.n) (hval : CurrValid g s) (hagg : CommAgg g s) :
    CurrValid g (louvainBodyStep g k s v) ∧ CommAgg g (louvainBodyStep g k s v) := by
  have ht : louvainBodyTarget g k s v < g.n :=
    louvainBodyTarget_lt g k s v hwf hv hval (hiso v hv)
  have htne : louvainBodyTarget g k s v ≠ NEG1 := by
    unfold NEG1 U64 at *
    omega
  by_cases hc : louvainBodyTarget g k s v = s.curr v
  · have hstep := louvainBodyStep_no_mig g k s v (by simp [hc])
    rw [hstep, hc, Function.update_eq_self]
    exact ⟨hval, hagg⟩
  · rw [louvainBodyStep_mig g k s v ⟨hc, htne⟩]
    exact migStep_preserves g s v (louvainBodyTarget g k s v) hv ht hc hn hW hval hagg

theorem louvainSched_invariant (g : CSRGraph) (k : ℚ)
    (hwf : WellFormed g) (hiso : NoIsolated g) (hn : g.n < U64)
    (hW : ∑ u ∈ Finset.range g.n, degWt g u < U64) :
    ∀ (sched : List ℕ) (s : LState), (∀ v ∈ sched, v < g.n) →
      CurrValid g s → CommAgg g s →
      CurrValid g (sched.foldl (louvainBodyStep g k) s) ∧
        CommAgg g (sched.foldl (louvainBodyStep g k) s) := by
  intro sched
  induction sched with
  | nil =>
      intro s _ h1 h2
      exact ⟨h1, h2⟩
  | cons v sched ih =>
      intro s hs h1 h2
      have hv : v < g.n := hs v (List.mem_cons_self v sched)
      have hstep := louvainBodyStep_preserves g k s v hwf hiso hn hW hv h1 h2
      exact ih (louvainBodyStep g k s v)
        (fun u hu => hs u (List.mem_cons_of_mem _ hu)) hstep.1 hstep.2

/-- C2 counterexample: a single isolated vertex.  After the first iteration
its body has stored `curr_comm_ass(0) = (uint64_t)(-1)` without touching
`c_info`, so `c_info[0].size = 1` while no vertex is assigned to community
`0`, and `Σ_c c_info[c].size = 1` though the graph has `0` non-isolated
vertices — the claimed invariant fails at the iteration boundary. -/
theorem c2_counterexample :
    ([0].foldl (louvainBodyStep oneIsolated (calConstantForSecondTerm oneIsolated))
        (initLState oneIsolated)).cSize 0 = 1 ∧
    commCount oneIsolated
        ([0].foldl (louvainBodyStep oneIsolated (calConstantForSecondTerm oneIsolated))
          (initLState oneIsolated)) 0 = 0 ∧
    ∑ c ∈ Finset.range oneIsolated.n,
        ([0].foldl (louvainBodyStep oneIsolated (calConstantForSecondTerm oneIsolated))
          (initLState oneIsolated)).cSize c = 1 := by
  refine ⟨?_, ?_, ?_⟩
  · decide
  · decide
  · decide

/-- C2 amended: on a graph whose vertices all have degree at least one
(amendment forced by the isolated-vertex counterexample), after any sequence
of iteration-body executions on valid vertices — hence at every iteration
boundary, for any sequential interleaving and any number of iterations — every
community record satisfies `c_info[c].size = #\x7bv : curr_comm(v) = c\x7d` and
`c_info[c].degree_wt = Σ degree_wt(v)` over those vertices, and
`Σ_c c_info[c].size` equals the number of (non-isolated) vertices `g.n`.
The bounds `g.n < 2^64` and `Σ_v degree_wt(v) < 2^64` keep the `uint64_t`
aggregate arithmetic wrap-free. -/
theorem c2_amended_invariant (g : CSRGraph) (sched : List ℕ)
    (hwf : WellFormed g) (hiso : NoIsolated g) (hn : g.n < U64)
    (hW : ∑ u ∈ Finset.range g.n, degWt g u < U64)
    (hsched : ∀ v ∈ sched, v < g.n) :
    CommAgg g
      (sched.foldl (louvainBodyStep g (calConstantForSecondTerm g)) (initLState g)) ∧
    ∑ c ∈ Finset.range g.n,
        (sched.foldl (louvainBodyStep g (calConstantForSecondTerm g))
          (initLState g)).cSize c = g.n := by
  have h := louvainSched_invariant g (calConstantForSecondTerm g) hwf hiso hn hW
    sched (initLState g) hsched (initLState_valid g) (initLState_agg g)
  refine ⟨h.2, ?_⟩
  have hc : ∀ c ∈ Finset.range g.n,
      (sched.foldl (louvainBodyStep g (calConstantForSecondTerm g))
        (initLState g)).cSize c
        = commCount g
            (sched.foldl (louvainBodyStep g (calConstantForSecondTerm g))
              (initLState g)) c :=
    fun c hcm => (h.2 c (Finset.mem_range.1 hcm)).1
  rw [Finset.sum_congr rfl hc]
  exact sum_commCount g _ h.1

/-- C2 amended witness: the invariant theorem applied to the symmetric path
`0 — 1` (both vertices of degree one) after one full iteration pass in id
order. -/
theorem c2_amended_invariant_witness :
    CommAgg pathGraph
      ([0, 1].foldl (louvainBodyStep pathGraph (calConstantForSecondTerm pathGraph))
        (initLState pathGraph)) ∧
    ∑ c ∈ Finset.range pathGraph.n,
        ([0, 1].foldl (louvainBodyStep pathGraph (calConstantForSecondTerm pathGraph))
          (initLState pathGraph)).cSize c = pathGraph.n :=
  c2_amended_invariant pathGraph [0, 1]
    (by unfold WellFormed; decide) (by unfold NoIsolated; decide) (by decide)
    (by decide) (by decide)

/-! ## The Alt worklists (`GaloisRuntime::WorkList::Alt`)

Single-worker embedding.  A `Chunk<T, chunksize>` holds `data[0..num)`,
modelled as the list of stored items in array order; `push` appends at `num`,
`pop` removes `data[num-1]`.  A `LIFO_SB` is a Treiber stack of chunks; under
one worker, `push` is a single successful CAS and `pop`/`steal` the locked
head removal, so the stack is just the list of chunks, head first.  Task
items are naturals. -/

/-- `Chunk::push(val)`: `none` when the chunk is full. -/
def chunkPush (K : ℕ) (c : List ℕ) (v : ℕ) : Option (List ℕ) :=
  if c.length < K then some (c ++ [v]) else none

/-- `Chunk::pop()`: `(true, data[--num])` unless empty. -/
def chunkPop (c : List ℕ) : Option (ℕ × List ℕ) :=
  match c.getLast? with
  | some x => some (x, c.dropLast)
  | none => none

/-- `Chunk::push(b, e)`: copy from the range while there is room; returns the
filled chunk and the unconsumed tail of the range. -/
def chunkPushRange (K : ℕ) (c : List ℕ) : List ℕ → List ℕ × List ℕ
  | [] => (c, [])
  | x :: rest =>
    if c.length < K then chunkPushRange K (c ++ [x]) rest else (c, x :: rest)

/-- `LIFO_SB::push` (and `pushi`, which just calls `push`): Treiber push of a
chunk onto the head. -/
def sbPush (c : List ℕ) (st : List (List ℕ)) : List (List ℕ) := c :: st

/-- `LIFO_SB::pop` (and `steal`, identical once the try-lock succeeds):
detach the head chunk. -/
def sbPop : List (List ℕ) → Option (List ℕ) × List (List ℕ)
  | [] => (none, [])
  | c :: rest => (some c, rest)

/-- `InitialQueue<Init, Running>` over two single-worker `LIFO_SB`s:
`globalQ` is the `Init` seed queue, `localQ` the `Running` queue. -/
structure IQ where
  globalQ : List (List ℕ)
  localQ : List (List ℕ)
deriving DecidableEq

/-- `InitialQueue::push`: route to the running queue. -/
def iqPush (c : List ℕ) (q : IQ) : IQ := { q with localQ := sbPush c q.localQ }

/-- `InitialQueue::pushi`: route to the init queue. -/
def iqPushi (c : List ℕ) (q : IQ) : IQ := { q with globalQ := sbPush c q.globalQ }

/-- `InitialQueue::pop`: prefer the running queue, fall back to the seeds. -/
def iqPop (q : IQ) : Option (List ℕ) × IQ :=
  match sbPop q.localQ with
  | (some c, l) => (some c, { q with localQ := l })
  | (none, l) =>
    match sbPop q.globalQ with
    | (some c, gq) => (some c, ⟨gq, l⟩)
    | (none, gq) => (none, ⟨gq, l⟩)

/-- `ChunkedAdaptor` state for one worker: its `PerCPU` current-chunk slot and
the underlying worklist (type parameter `gWL`). -/
structure Adaptor (W : Type) where
  cur : Option (List ℕ)
  wl : W
deriving DecidableEq

/-- `ChunkedAdaptor::push(val)`: push into the current chunk if it has room;
otherwise publish the full chunk via `worklist.push`, make a fresh chunk and
push into it (the source ignores that second `push`'s result —
`//There better be something in the new chunk`). -/
def adPush {W : Type} (K : ℕ) (wpush : List ℕ → W → W) (s : Adaptor W) (v : ℕ) :
    Bool × Adaptor W :=
  match s.cur with
  | some n =>
    match chunkPush K n v with
    | some n2 => (true, { s with cur := some n2 })
    | none => (true, { cur := some ((chunkPush K [] v).getD []), wl := wpush n s.wl })
  | none => (true, { s with cur := some ((chunkPush K [] v).getD []) })

/-- `ChunkedAdaptor::pushi(val)`: the source forwards to `push(val)`. -/
def adPushi {W : Type} (K : ℕ) (wpush : List ℕ → W → W) (s : Adaptor W) (v : ℕ) :
    Bool × Adaptor W :=
  adPush K wpush s v

/-- The refill half of `ChunkedAdaptor::pop`: fetch a chunk from the
underlying worklist into the current-chunk slot and pop it. -/
def adPopRefill {W : Type} (wpop : W → Option (List ℕ) × W) (s : Adaptor W) :
    Option ℕ × Adaptor W :=
  match wpop s.wl with
  | (some c, w) =>
    match chunkPop c with
    | some (x, c2) => (some x, { cur := some c2, wl := w })
    | none => (none, { cur := some c, wl := w })
  | (none, w) => (none, { cur := none, wl := w })

/-- `ChunkedAdaptor::pop()`: pop the current chunk if it has items; otherwise
free the empty chunk and refill from the worklist; `(false, _)` when the
worklist is drained too. -/
def adPop {W : Type} (wpop : W → Option (List ℕ) × W) (s : Adaptor W) :
    Option ℕ × Adaptor W :=
  match s.cur with
  | some n =>
    match chunkPop n with
    | some (x, n2) => (some x, { s with cur := some n2 })
    | none => adPopRefill wpop s
  | none => adPopRefill wpop s

/-- The iterator `ChunkedAdaptor::pushi(b, e)` loop with explicit fuel (the
source loop needs one fresh chunk per pass and terminates for every positive
`chunksize`; fuel `items.length` suffices): fill a fresh chunk from the range
and publish it through `worklist.pushi`, until the range is drained.  The
current-chunk slot is never touched. -/
def adPushiRangeAux {W : Type} (K : ℕ) (wpushi : List ℕ → W → W) :
    ℕ → Adaptor W → List ℕ → Adaptor W
  | 0, s, _ => s
  | _ + 1, s, [] => s
  | fuel + 1, s, x :: rest =>
    adPushiRangeAux K wpushi fuel
      { s with wl := wpushi (chunkPushRange K [] (x :: rest)).1 s.wl }
      (chunkPushRange K [] (x :: rest)).2

/-- `ChunkedAdaptor::pushi(b, e)`. -/
def adPushiRange {W : Type} (K : ℕ) (wpushi : List ℕ → W → W) (s : Adaptor W)
    (items : List ℕ) : Adaptor W :=
  adPushiRangeAux K wpushi items.length s items

/-! ### C3: single-worker LIFO refinement -/

/-- A single-worker request stream against the user-facing worklist. -/
inductive WOp where
  | push (v : ℕ)
  | pop
deriving DecidableEq

/-- Run a request stream through a `ChunkedAdaptor` over a `LIFO_SB`
(the default `gWL` template argument), collecting each `pop` result. -/
def runAdaptorSB (K : ℕ) :
    List WOp → Adaptor (List (List ℕ)) → List (Option ℕ) × Adaptor (List (List ℕ))
  | [], s => ([], s)
  | .push v :: rest, s => runAdaptorSB K rest (adPush K sbPush s v).2
  | .pop :: rest, s =>
    ((adPop sbPop s).1 :: (runAdaptorSB K rest (adPop sbPop s).2).1,
      (runAdaptorSB K rest (adPop sbPop s).2).2)

/-- Run the same stream through a single mathematical stack. -/
def runStack : List WOp → List ℕ → List (Option ℕ) × List ℕ
  | [], st => ([], st)
  | .push v :: rest, st => runStack rest (v :: st)
  | .pop :: rest, [] => ((none : Option ℕ) :: (runStack rest []).1, (runStack rest []).2)
  | .pop :: rest, x :: xs => (some x :: (runStack rest xs).1, (runStack rest xs).2)

/-- The items resident in a stack of chunks, most recently pushed first. -/
def absChunks (wl : List (List ℕ)) : List ℕ := (wl.map List.reverse).flatten

/-- The items resident in the adaptor, most recently pushed first. -/
def absAdaptor (s : Adaptor (List (List ℕ))) : List ℕ :=
  (match s.cur with
   | some c => c.reverse
   | none => []) ++ absChunks s.wl

/-- Chunks published to the `LIFO_SB` are never empty (they are published
exactly when full). -/
def AdInv (s : Adaptor (List (List ℕ))) : Prop := ∀ c ∈ s.wl, c ≠ []

theorem reverse_eq_getLast_cons (c : List ℕ) (hc : c ≠ []) (x : ℕ)
    (hx : c.getLast? = some x) : c.reverse = x :: c.dropLast.reverse := by
  have h1 : c.dropLast ++ [c.getLast hc] = c := List.dropLast_append_getLast hc
  have h2 : c.getLast hc = x := by
    rw [List.getLast?_eq_getLast c hc] at hx
    exact Option.some_injective _ hx
  conv_lhs => rw [← h1]
  rw [List.reverse_append, h2]
  rfl

theorem adPush_sim (K : ℕ) (hK : 0 < K) (s : Adaptor (List (List ℕ))) (v : ℕ)
    (hinv : AdInv s) :
    (adPush K sbPush s v).1 = true ∧
    absAdaptor (adPush K sbPush s v).2 = v :: absAdaptor s ∧
    AdInv (adPush K sbPush s v).2 := by
  have hfresh : (chunkPush K [] v).getD [] = [v] := by
    unfold chunkPush
    rw [if_pos (by simpa using hK)]
    rfl
  cases hcur : s.cur with
  | none =>
    simp only [adPush, hcur, hfresh]
    refine ⟨trivial, ?_, fun c hc => hinv c hc⟩
    simp [absAdaptor, hcur]
  | some n =>
    by_cases hlen : n.length < K
    · have hsome : chunkPush K n v = some (n ++ [v]) := by
        unfold chunkPush
        rw [if_pos hlen]
      simp only [adPush, hcur, hsome]
      refine ⟨trivial, ?_, fun c hc => hinv c hc⟩
      simp [absAdaptor, hcur]
    · have hnone : chunkPush K n v = none := by
        unfold chunkPush
        rw [if_neg hlen]
      simp only [adPush, hcur, hnone, hfresh]
      refine ⟨trivial, ?_, ?_⟩
      · simp [absAdaptor, hcur, absChunks, sbPush]
      · intro c hc
        rcases List.mem_cons.1 hc with rfl | hc2
        · intro hnil
          rw [hnil] at hlen
          simp at hlen
          omega
        · exact hinv c hc2

theorem adPopRefill_sim (s : Adaptor (List (List ℕ))) (hinv : AdInv s) :
    (adPopRefill sbPop s).1 = (absChunks s.wl).head? ∧
    absAdaptor (adPopRefill sbPop s).2 = (absChunks s.wl).tail ∧
    AdInv (adPopRefill sbPop s).2 := by
  cases hwl : s.wl with
  | nil =>
    simp only [adPopRefill, sbPop, hwl]
    exact ⟨rfl, by simp [absAdaptor, absChunks], fun c hc => absurd hc (List.not_mem_nil c)⟩
  | cons c rest =>
    have hc : c ≠ [] := hinv c (by rw [hwl]; exact List.mem_cons_self c rest)
    obtain ⟨x, hx⟩ : ∃ x, c.getLast? = some x := by
      cases hgc : c.getLast? with
      | none => exact absurd (List.getLast?_eq_none_iff.1 hgc) hc
      | some y => exact ⟨y, rfl⟩
    have hrev : c.reverse = x :: c.dropLast.reverse := reverse_eq_getLast_cons c hc x hx
    simp only [adPopRefill, sbPop, hwl, chunkPop, hx]
    refine ⟨?_, ?_, fun d hd => hinv d (by rw [hwl]; exact List.mem_cons_of_mem c hd)⟩
    · simp [absChunks, hrev]
    · simp [absAdaptor, absChunks, hrev]

theorem adPop_sim (s : Adaptor (List (List ℕ))) (hinv : AdInv s) :
    (adPop sbPop s).1 = (absAdaptor s).head? ∧
    absAdaptor (adPop sbPop s).2 = (absAdaptor s).tail ∧
    AdInv (adPop sbPop s).2 := by
  cases hcur : s.cur with
  | none =>
    have habs : absAdaptor s = absChunks s.wl := by simp [absAdaptor, hcur]
    have h := adPopRefill_sim s hinv
    simp only [adPop, hcur, habs]
    exact h
  | some n =>
    cases hcp : chunkPop n with
    | some p =>
      obtain ⟨x, n2⟩ := p
      have hx : n.getLast? = some x ∧ n.dropLast = n2 := by
        unfold chunkPop at hcp
        cases hgc : n.getLast? with
        | none => rw [hgc] at hcp; exact absurd hcp (by simp)
        | some y =>
          rw [hgc] at hcp
          simp only [Option.some_inj, Prod.mk.injEq] at hcp
          exact ⟨by rw [hcp.1], hcp.2⟩
      have hnnil : n ≠ [] := by
        intro hnil
        rw [hnil] at hx
        exact absurd hx.1 (by simp)
      have hrev : n.reverse = x :: n2.reverse := by
        rw [← hx.2]
        exact reverse_eq_getLast_cons n hnnil x hx.1
      simp only [adPop, hcur, hcp]
      refine ⟨?_, ?_, fun d hd => hinv d hd⟩
      · simp [absAdaptor, hcur, hrev]
      · simp [absAdaptor, hcur, hrev]
    | none =>
      have hnil : n = [] := by
        unfold chunkPop at hcp
        cases hgc : n.getLast? with
        | none => exact List.getLast?_eq_none_iff.1 hgc
        | some y => rw [hgc] at hcp; exact absurd hcp (by simp)
      have habs : absAdaptor s = absChunks s.wl := by simp [absAdaptor, hcur, hnil]
      have h := adPopRefill_sim s hinv
      simp only [adPop, hcur, hcp, habs]
      exact h

theorem runAdaptorSB_sim (K : ℕ) (hK : 0 < K) :
    ∀ (ops : List WOp) (s : Adaptor (List (List ℕ))) (st : List ℕ),
      AdInv s → absAdaptor s = st →
      (runAdaptorSB K ops s).1 = (runStack ops st).1 := by
  intro ops
  induction ops with
  | nil =>
      intro s st _ _
      rfl
  | cons op rest ih =>
      intro s st hinv habs
      cases op with
      | push v =>
        have h := adPush_sim K hK s v hinv
        show (runAdaptorSB K rest (adPush K sbPush s v).2).1 = (runStack rest (v :: st)).1
        exact ih _ _ h.2.2 (by rw [h.2.1, habs])
      | pop =>
        have h := adPop_sim s hinv
        cases st with
        | nil =>
          have h1 : (adPop sbPop s).1 = none := by rw [h.1, habs]; rfl
          have h2 : absAdaptor (adPop sbPop s).2 = [] := by rw [h.2.1, habs]; rfl
          show (adPop sbPop s).1 :: (runAdaptorSB K rest (adPop sbPop s).2).1
              = none :: (runStack rest []).1
          rw [h1, ih _ _ h.2.2 h2]
        | cons x xs =>
          have h1 : (adPop sbPop s).1 = some x := by rw [h.1, habs]; rfl
          have h2 : absAdaptor (adPop sbPop s).2 = xs := by rw [h.2.1, habs]; rfl
          show (adPop sbPop s).1 :: (runAdaptorSB K rest (adPop sbPop s).2).1
              = some x :: (runStack rest xs).1
          rw [h1, ih _ _ h.2.2 h2]

/-- C3: for every single-worker request stream, a `ChunkedAdaptor` (any
positive chunk size) over a `LIFO_SB` produces exactly the `pop` results of a
single stack: each `pop` returns the most recently pushed unmatched item and
fails exactly when none remains. -/
theorem c3_adaptor_lifo_refinement (K : ℕ) (hK : 0 < K) (ops : List WOp) :
    (runAdaptorSB K ops ⟨none, []⟩).1 = (runStack ops []).1 :=
  runAdaptorSB_sim K hK ops ⟨none, []⟩ []
    (fun c hc => absurd hc (List.not_mem_nil c)) rfl

/-- C3 witness: chunk size `2` with three pushes and four pops (exercising
chunk publication, refill, and underflow), matching the stack outputs. -/
theorem c3_adaptor_lifo_refinement_witness :
    0 < 2 ∧
    (runAdaptorSB 2 [.push 1, .push 2, .push 3, .pop, .pop, .pop, .pop]
        ⟨none, []⟩).1
      = (runStack [.push 1, .push 2, .push 3, .pop, .pop, .pop, .pop] []).1 ∧
    (runStack [.push 1, .push 2, .push 3, .pop, .pop, .pop, .pop] []).1
      = [some 3, some 2, some 1, none] :=
  ⟨by decide, c3_adaptor_lifo_refinement 2 (by decide) _, by decide⟩

/-! ### C9 and C10 -/

theorem adPushiRangeAux_cur {W : Type} (K : ℕ) (wpushi : List ℕ → W → W) :
    ∀ (fuel : ℕ) (s : Adaptor W) (items : List ℕ),
      (adPushiRangeAux K wpushi fuel s items).cur = s.cur := by
  intro fuel
  induction fuel with
  | zero =>
      intro s items
      rfl
  | succ fuel ih =>
      intro s items
      cases items with
      | nil => rfl
      | cons x rest => exact ih _ _

theorem adPushiRangeAux_localQ (K : ℕ) :
    ∀ (fuel : ℕ) (s : Adaptor IQ) (items : List ℕ),
      (adPushiRangeAux K iqPushi fuel s items).wl.localQ = s.wl.localQ := by
  intro fuel
  induction fuel with
  | zero =>
      intro s items
      rfl
  | succ fuel ih =>
      intro s items
      cases items with
      | nil => rfl
      | cons x rest => exact ih _ _

theorem adPush_iq_globalQ (K : ℕ) (s : Adaptor IQ) (v : ℕ) :
    (adPush K iqPush s v).2.wl.globalQ = s.wl.globalQ := by
  cases hcur : s.cur with
  | none => simp only [adPush, hcur]
  | some n =>
    cases hcp : chunkPush K n v with
    | some n2 => simp only [adPush, hcur, hcp]
    | none => simp only [adPush, hcur, hcp, iqPush]

/-- C9 counterexample: from a fresh adaptor over an `InitialQueue`,
`pushi(5)` lands in the worker's current chunk — which changes from empty to
`some [5]` — and nothing reaches the initial (seed) queue, contradicting the
claim that single-value `pushi` publishes through `worklist.pushi` and leaves
the current chunk unchanged. -/
theorem c9_counterexample :
    (adPushi 64 iqPush (⟨none, ⟨[], []⟩⟩ : Adaptor IQ) 5).2.cur ≠
      (⟨none, ⟨[], []⟩⟩ : Adaptor IQ).cur ∧
    (adPushi 64 iqPush (⟨none, ⟨[], []⟩⟩ : Adaptor IQ) 5).2.wl.globalQ = [] ∧
    (adPushi 64 iqPush (⟨none, ⟨[], []⟩⟩ : Adaptor IQ) 5).2.cur = some [5] := by
  refine ⟨?_, ?_, ?_⟩ <;> decide

/-- C9 amended: single-value `ChunkedAdaptor::pushi` simply forwards to
`push`, so the item goes through the worker's current chunk and the
initial-queue side of the worklist is never touched; it is only the
iterator-range `pushi(b, e)` that publishes fresh chunks through
`worklist.pushi`, leaving the current chunk (and the running queue) alone. -/
theorem c9_amended_pushi (K : ℕ) (s : Adaptor IQ) (v : ℕ) (items : List ℕ) :
    adPushi K iqPush s v = adPush K iqPush s v ∧
    (adPushi K iqPush s v).2.wl.globalQ = s.wl.globalQ ∧
    (adPushiRange K iqPushi s items).cur = s.cur ∧
    (adPushiRange K iqPushi s items).wl.localQ = s.wl.localQ :=
  ⟨rfl, adPush_iq_globalQ K s v, adPushiRangeAux_cur K iqPushi items.length s items,
    adPushiRangeAux_localQ K items.length s items⟩

/-- C10: `ChunkedAdaptor::push` always returns `true`, and the pushed value is
stored in the current chunk when it has room (worklist untouched), and in a
fresh one-element chunk otherwise — after the full current chunk, if any, is
published to the underlying worklist. -/
theorem c10_push_total (W : Type) (wpush : List ℕ → W → W) (K : ℕ) (hK : 0 < K)
    (s : Adaptor W) (v : ℕ) :
    (adPush K wpush s v).1 = true ∧
    (adPush K wpush s v).2 =
      (match s.cur with
       | some n =>
         if n.length < K then { s with cur := some (n ++ [v]) }
         else { cur := some [v], wl := wpush n s.wl }
       | none => { s with cur := some [v] }) := by
  have hfresh : (chunkPush K [] v).getD [] = [v] := by
    unfold chunkPush
    rw [if_pos (by simpa using hK)]
    rfl
  cases hcur : s.cur with
  | none =>
    simp only [adPush, hcur, hfresh]
    exact ⟨trivial, trivial⟩
  | some n =>
    by_cases hlen : n.length < K
    · have hsome : chunkPush K n v = some (n ++ [v]) := by
        unfold chunkPush
        rw [if_pos hlen]
      simp only [adPush, hcur, hsome, if_pos hlen]
      exact ⟨trivial, trivial⟩
    · have hnone : chunkPush K n v = none := by
        unfold chunkPush
        rw [if_neg hlen]
      simp only [adPush, hcur, hnone, hfresh, if_neg hlen]
      exact ⟨trivial, trivial⟩

/-- C10 witness: pushing into a partially filled chunk at the default chunk
size `64`. -/
theorem c10_push_total_witness :
    (adPush 64 sbPush (⟨some [5], []⟩ : Adaptor (List (List ℕ))) 7).1 = true :=
  (c10_push_total (List (List ℕ)) sbPush 64 (by decide) ⟨some [5], []⟩ 7).1

end GaloisSpec
